import Mathlib

/-!
Verification of the line-transformation engine of a Rime dictionary
rewriting tool (three Python scripts: a main refresh tool, a near-duplicate
in-place base variant, and an ad-hoc strip script).

Strings are modelled as `List Char`, Python `dict` tables as association
lists, and the external pinyin transcription service (`pypinyin.pinyin`)
as an opaque function bundle, matching the specification's treatment of
transcription generation as an external collaborator.

Conventions used throughout:
- `str.split(sep)` is `pySplitOn`, `sep.join(xs)` is `pyJoin`;
- `str.split()` (whitespace split) is `pySplitWs`;
- `str.strip()` is `pyStrip`;
- `re.split(AUX_SEP_REGEX, s)[0]` (prefix before the first `;` or `[`) is
  `auxRoot`, and `seg[len(root):]` is `segSuffix`.
-/

/-- Python whitespace predicate for `str.split()` / `str.strip()`
(ASCII whitespace: space, tab, newline, carriage return, vertical tab,
form feed). -/
def pyIsSpace (c : Char) : Bool :=
  c == ' ' || c == '\t' || c == '\n' || c == '\r' || c == '\x0b' || c == '\x0c'

/-- The auxiliary-suffix separator class `AUX_SEP_REGEX = r'[;\[]'`:
semicolon or opening bracket. -/
def isAuxSep (c : Char) : Bool :=
  c == ';' || c == '['

/-- `re.split(AUX_SEP_REGEX, seg)[0]`: the prefix of `seg` before its first
separator character. -/
def auxRoot (seg : List Char) : List Char :=
  seg.takeWhile (fun c => !(isAuxSep c))

/-- `seg[len(root):]` where `root = re.split(AUX_SEP_REGEX, seg)[0]`:
everything from the first separator character onward. -/
def segSuffix (seg : List Char) : List Char :=
  seg.drop (auxRoot seg).length

/-- `part.split(';')[0]`: the prefix before the first semicolon
(strip mode uses only `;`, not `[`). -/
def semiRoot (part : List Char) : List Char :=
  part.takeWhile (fun c => !(c == ';'))

/-- Python `str.split(sep)` for a single separator character: keeps empty
pieces, `"".split(c) = [""]`. -/
def pySplitOn (sep : Char) : List Char → List (List Char)
  | [] => [[]]
  | x :: xs =>
    if x = sep then [] :: pySplitOn sep xs
    else
      match pySplitOn sep xs with
      | [] => [[x]]
      | h :: t => (x :: h) :: t

/-- Python `sep.join(pieces)` for a single separator character. -/
def pyJoin (sep : Char) : List (List Char) → List Char
  | [] => []
  | [p] => p
  | p :: ps => p ++ sep :: pyJoin sep ps

/-- Helper for `pySplitWs`; `acc` is the current token, reversed. -/
def pySplitWsAux : List Char → List Char → List (List Char)
  | [], [] => []
  | [], acc => [acc.reverse]
  | c :: cs, acc =>
    if pyIsSpace c then
      match acc with
      | [] => pySplitWsAux cs []
      | _ => acc.reverse :: pySplitWsAux cs []
    else pySplitWsAux cs (c :: acc)

/-- Python `str.split()` with no argument: split on runs of whitespace,
discarding empty tokens (`"".split() = []`). -/
def pySplitWs (l : List Char) : List (List Char) :=
  pySplitWsAux l []

/-- Python `str.strip()`: remove leading and trailing whitespace. -/
def pyStrip (l : List Char) : List Char :=
  ((l.dropWhile pyIsSpace).reverse.dropWhile pyIsSpace).reverse

/-- Number of trailing space characters of a string. -/
def trailingSpaceCount (l : List Char) : Nat :=
  (l.reverse.takeWhile (fun c => c == ' ')).length

/-- Python `str.isdigit()`: nonempty and all digit characters. -/
def pyIsDigits (l : List Char) : Bool :=
  !l.isEmpty && l.all Char.isDigit

/-- Python `str.endswith(' ')`. -/
def endsWithSpace (l : List Char) : Bool :=
  l.getLast? == some ' '

/-- The opaque external transcription service (`pypinyin`), as the spec
directs (§1 non-goals): `charPy w` models
`[p[0] for p in pinyin(w, style=Style.TONE, heteronym=False)]`
(one tone-marked candidate per unit of `w`), and `tonePy root` models the
first candidate of `pinyin(root, style=Style.TONE, heteronym=False,
errors='ignore')`, `none` when that call returns an empty list. -/
structure PinyinSvc where
  charPy : List Char → List (List Char)
  tonePy : List Char → Option (List Char)

/-- `tone_mark(seg)`: split `seg` into root and suffix, tone-mark the root
via the external service, re-attach the suffix
(`return (py[0][0] if py else root) + suffix`).  The `HAS_PYPINYIN` guard
is folded into the callers' refresh-pinyin flag. -/
def tone_mark (svc : PinyinSvc) (seg : List Char) : List Char :=
  let root := auxRoot seg
  let suffix := seg.drop root.length
  (match svc.tonePy root with
   | some p => p
   | none => root) ++ suffix

/-- `build_seg_by_aux(word, aux_map) = [aux_map.get(ch, '') for ch in word]`. -/
def build_seg_by_aux (word : List Char) (auxMap : List (Char × List Char)) :
    List (List Char) :=
  word.map (fun ch => (auxMap.lookup ch).getD [])

/-- The merge loop of the auxiliary-code refresh block: for each raw
segment `py` at position `i`, emit `root;aux` where
`root = re.split(AUX_SEP_REGEX, py)[0]` and
`aux = aux_segs[i] if i < len(aux_segs) else ''` with
`aux_segs = build_seg_by_aux(word, aux_map)`. -/
def mergeAuxSegs (auxMap : List (Char × List Char)) (word : List Char)
    (rawSegs : List (List Char)) : List (List Char) :=
  let auxSegs := build_seg_by_aux word auxMap
  rawSegs.enum.map (fun p =>
    let aux := if h : p.1 < auxSegs.length then auxSegs.get ⟨p.1, h⟩ else []
    auxRoot p.2 ++ ';' :: aux)

/-- The UserDB (≥ 3 columns) transcription-regeneration loop: segment `i`
becomes `base_py + suffix` where `base_py = char_py[i]` when available and
`tone_mark(seg)` otherwise, and `suffix = seg[len(root):]`. -/
def userdbMergeSegs (svc : PinyinSvc) (charPy : List (List Char))
    (segs : List (List Char)) : List (List Char) :=
  segs.enum.map (fun p =>
    (if h : p.1 < charPy.length then charPy.get ⟨p.1, h⟩ else tone_mark svc p.2)
      ++ segSuffix p.2)

/-- The Plain-format transcription-regeneration loop over `char_py`:
entry `i` becomes `py + suffix` where `suffix` is the suffix of the
existing segment `segs[i]` when present and empty otherwise. -/
def plainMergeSegs (charPy : List (List Char)) (segs : List (List Char)) :
    List (List Char) :=
  charPy.enum.map (fun p =>
    p.2 ++ (if h : p.1 < segs.length then segSuffix (segs.get ⟨p.1, h⟩) else []))

/-- The transcription-regeneration block (`if REFRESH_PINYIN and
HAS_PYPINYIN:` — both folded into `rp`) of `process_file_in_place`,
as a transformation of the column list.  The re-check of
`word.strip()` inside both branches is omitted: the caller reaches this
block only after the identical non-blank check already succeeded, so the
re-check can never fire; the `except` handler is likewise dead here since
no modelled operation raises. -/
def pinyinStep (rp : Bool) (svc : PinyinSvc) (userdb : Bool)
    (word : List Char) (cols : List (List Char)) : List (List Char) :=
  if rp then
    if userdb && decide (3 ≤ cols.length) then
      let segs := pySplitWs (cols.headD [])
      let charPy := svc.charPy word
      cols.set 0 (pyJoin ' ' (userdbMergeSegs svc charPy segs))
    else
      let charPy := svc.charPy word
      if cols.length = 1 then
        cols ++ [pyJoin ' ' charPy]
      else if decide (2 ≤ cols.length) && pyIsDigits (cols.getD 1 []) then
        word :: pyJoin ' ' charPy :: cols.drop 1
      else if decide (2 ≤ cols.length) then
        cols.set 1 (pyJoin ' ' (plainMergeSegs charPy (pySplitWs (cols.getD 1 []))))
      else cols
  else cols

/-- The auxiliary-code refresh block (`if REFRESH_AUX_CODE and aux_map:` —
an empty dict is falsy, hence the `auxMap ≠ []` conjunct), as a
transformation of the column list. -/
def auxStep (ra : Bool) (auxMap : List (Char × List Char)) (userdb : Bool)
    (word : List Char) (cols : List (List Char)) : List (List Char) :=
  if ra && !auxMap.isEmpty then
    let segIdx := if userdb then 0 else 1
    let cols1 :=
      if !userdb && cols.length = 1 then cols.take 1 ++ [[]] ++ cols.drop 1
      else if userdb && cols.length < 2 then cols ++ [[]]
      else cols
    if segIdx < cols1.length then
      let rawSegs := pySplitWs (pyStrip (cols1.getD segIdx []))
      let merged := mergeAuxSegs auxMap word rawSegs
      if userdb then cols1.set 0 (pyJoin ' ' merged)
      else if !merged.isEmpty then cols1.set segIdx (pyJoin ' ' merged)
      else cols1
    else
      let cols2 :=
        if userdb then [] :: cols1
        else cols1.take 1 ++ [[]] ++ cols1.drop 1
      if userdb then cols2.set 0 (pyJoin ' ' (mergeAuxSegs auxMap word []))
      else cols2
  else cols

/-- The final UserDB convention step: `if userdb and cols and len(cols) > 0`,
append one space to column 0 when it does not already end with one. -/
def trailingStep (userdb : Bool) (cols : List (List Char)) : List (List Char) :=
  if userdb && !cols.isEmpty then
    if endsWithSpace (cols.headD []) then cols
    else cols.set 0 (cols.headD [] ++ [' '])
  else cols

/-- The full refresh-mode column pipeline applied to one data line's
columns: transcription regeneration, then auxiliary-code refresh, then the
UserDB trailing-space convention. -/
def refreshCols (svc : PinyinSvc) (auxMap : List (Char × List Char))
    (rp ra userdb : Bool) (word : List Char) (cols : List (List Char)) :
    List (List Char) :=
  trailingStep userdb (auxStep ra auxMap userdb word (pinyinStep rp svc userdb word cols))

/-- One data line of `process_file_in_place` (MainRime.py lines 330-445):
split on tabs, extract the word column (`cols[1] if userdb else cols[0]`,
an `IndexError` keeping the line unchanged), keep the line unchanged when
the word is blank, otherwise run both refresh blocks and the trailing-space
step and re-join with tabs. -/
def processDataLine (svc : PinyinSvc) (auxMap : List (Char × List Char))
    (rp ra userdb : Bool) (line : List Char) : List Char :=
  let cols := pySplitOn '\t' line
  match (if userdb then cols.get? 1 else cols.get? 0) with
  | none => line
  | some w =>
    if pyStrip w = [] then line
    else pyJoin '\t' (refreshCols svc auxMap rp ra userdb w cols)

/-- The recognized YAML-style header prefixes
`yaml_heads = ('---', 'name:', 'version:', 'sort:', '...')`. -/
def yamlHeadsList : List (List Char) :=
  [("---").toList, ("name:").toList, ("version:").toList,
   ("sort:").toList, ("...").toList]

/-- `line.startswith(yaml_heads) or line.startswith('#')`. -/
def isControlLine (l : List Char) : Bool :=
  yamlHeadsList.any (fun h => h.isPrefixOf l) || ("#").toList.isPrefixOf l

/-- Python `needle in hay` substring containment. -/
def containsSub (needle hay : List Char) : Bool :=
  hay.tails.any (fun t => needle.isPrefixOf t)

/-- `is_userdb_head`: the line contains one of the two user-dictionary
markers as a substring. -/
def is_userdb_head (l : List Char) : Bool :=
  containsSub ("#@/db_type\tuserdb").toList l ||
  containsSub ("# Rime user dictionary").toList l

/-- The per-file loop of `process_file_in_place` over the in-memory line
list, threading the file-scoped `userdb` flag and the `modified` flag.
Control lines are copied verbatim (setting `userdb` when a marker is
seen), blank lines are emitted as the empty string, and each data line is
processed and compared against `original_line = '\t'.join(line.split('\t'))`.
Data lines that take an early-continue path are appended unchanged and
bypass the comparison in the source; since they equal `original_line`,
folding them into the uniform comparison is behavior-preserving. -/
def processFileRefresh (svc : PinyinSvc) (auxMap : List (Char × List Char))
    (rp ra : Bool) : List (List Char) → Bool → Bool → List (List Char) × Bool
  | [], _, modified => ([], modified)
  | line :: rest, userdb, modified =>
    if isControlLine line then
      let r := processFileRefresh svc auxMap rp ra rest (userdb || is_userdb_head line) modified
      (line :: r.1, r.2)
    else if pyStrip line = [] then
      let r := processFileRefresh svc auxMap rp ra rest userdb modified
      ([] :: r.1, r.2)
    else
      let processed := processDataLine svc auxMap rp ra userdb line
      let m := modified || processed ≠ pyJoin '\t' (pySplitOn '\t' line)
      let r := processFileRefresh svc auxMap rp ra rest userdb m
      (processed :: r.1, r.2)

/-- `remove_auxiliary_code_from_line(line, userdb)` (MainRime.py lines
176-203): locate the transcription column (0 for UserDB when at least one
column, 1 for Plain when at least two), keep only `part.split(';')[0]` of
each whitespace token, re-join.  The `if pinyin_parts:` guard in the
source is always true (`split(';')` never returns an empty list), so the
loop is a plain map. -/
def remove_auxiliary_code_from_line (line : List Char) (userdb : Bool) :
    List Char :=
  let cols := pySplitOn '\t' line
  match (if userdb && decide (1 ≤ cols.length) then some 0
         else if !userdb && decide (2 ≤ cols.length) then some 1
         else none : Option Nat) with
  | none => line
  | some idx =>
    let pinyins := pySplitWs (cols.getD idx [])
    let processed := pinyins.map semiRoot
    pyJoin '\t' (cols.set idx (pyJoin ' ' processed))

/-- The per-data-line transformation of the ad-hoc variant script
(remove_auxiliary_code.py lines 64-85): with at least 2 tab columns,
strip each whitespace token of column 1 to `pinyin.split(';')[0]` and
re-join; otherwise keep the line. -/
def adhocStripDataLine (line : List Char) : List Char :=
  let parts := pySplitOn '\t' line
  if decide (2 ≤ parts.length) then
    let pinyins := pySplitWs (parts.getD 1 [])
    let processed := pinyins.map semiRoot
    pyJoin '\t' (parts.set 1 (pyJoin ' ' processed))
  else line

/-- Python file iteration with a final `rstrip('\n')` per line: split the
decoded content at newline characters, dropping each terminator, with no
empty final line after a trailing terminator. -/
def pyReadLinesAux : List Char → List Char → List (List Char)
  | [], [] => []
  | [], acc => [acc.reverse]
  | c :: cs, acc =>
    if c = '\n' then acc.reverse :: pyReadLinesAux cs []
    else pyReadLinesAux cs (c :: acc)

/-- `[line.rstrip('\n') for line in f]` over decoded file content. -/
def pyReadLines (content : List Char) : List (List Char) :=
  pyReadLinesAux content []

/-- The latin-1 codec: every byte value 0-255 decodes to the Unicode code
point of the same value, so decoding is total. -/
def latin1Decode (bs : List UInt8) : List Char :=
  bs.map (fun b => Char.ofNat b.toNat)

/-- `read_file_safely`: try `utf-8`, then `gbk`, then `latin-1`, returning
the line list of the first decode that succeeds; the two fallible codecs
are abstract `Option`-valued decoders, the final latin-1 attempt is total.
The source's `return None` after the loop is reached only if every
encoding fails. -/
def read_file_safely (utf8Dec gbkDec : List UInt8 → Option (List Char))
    (bs : List UInt8) : Option (List (List Char)) :=
  match utf8Dec bs with
  | some s => some (pyReadLines s)
  | none =>
    match gbkDec bs with
    | some s => some (pyReadLines s)
    | none => some (pyReadLines (latin1Decode bs))

/-- Abstract state of the target file and its temp file during one
rewrite: `original` is the target path's content (`none` when absent),
`tempExists` whether a temp file is present in the directory. -/
structure FileState where
  original : Option (List Char)
  tempExists : Bool
deriving DecidableEq

/-- The write-and-replace protocol of `process_file_in_place` /
`remove_auxiliary_code_in_file` with fault injection at its three fallible
operations.  `NamedTemporaryFile(delete=False)` creates the temp file
before `tmp.write`; when the write raises, `temp_path` is still `None`,
so the cleanup `if temp_path and os.path.exists(temp_path)` skips the
unlink and the temp file remains.  On the replace path the source first
runs `os.unlink(file_path)` when the target exists and only then
`shutil.move(temp_path, file_path)`; a failure of either is caught and
the temp file (whose path is now known) is unlinked. -/
def write_and_replace (st : FileState) (content : List Char)
    (writeFails unlinkFails moveFails : Bool) : FileState × Bool :=
  if writeFails then
    ({ original := st.original, tempExists := true }, false)
  else if st.original.isSome && unlinkFails then
    ({ original := st.original, tempExists := false }, false)
  else if moveFails then
    ({ original := none, tempExists := false }, false)
  else
    ({ original := some content, tempExists := false }, true)

/-! ### Infrastructure lemmas about the Python string primitives -/

theorem pySplitOn_ne_nil (sep : Char) (l : List Char) : pySplitOn sep l ≠ [] := by
  induction l with
  | nil => simp [pySplitOn]
  | cons x xs ih =>
    simp only [pySplitOn]
    split
    · simp
    · cases h : pySplitOn sep xs <;> simp

theorem not_mem_pySplitOn (sep : Char) (l : List Char) :
    ∀ p ∈ pySplitOn sep l, sep ∉ p := by
  induction l with
  | nil =>
    intro p hp
    simp [pySplitOn] at hp
    simp [hp]
  | cons x xs ih =>
    intro p hp
    simp only [pySplitOn] at hp
    by_cases hx : x = sep
    · rw [if_pos hx] at hp
      rcases List.mem_cons.mp hp with rfl | hp
      · simp
      · exact ih p hp
    · rw [if_neg hx] at hp
      cases hr : pySplitOn sep xs with
      | nil => exact absurd hr (pySplitOn_ne_nil sep xs)
      | cons h t =>
        rw [hr] at hp
        rcases List.mem_cons.mp hp with rfl | hp
        · intro hmem
          rcases List.mem_cons.mp hmem with heq | hmem2
          · exact hx heq.symm
          · exact (ih h (by rw [hr]; exact List.mem_cons_self h t)) hmem2
        · exact ih p (by rw [hr]; exact List.mem_cons_of_mem h hp)

theorem pyJoin_cons_cons (sep : Char) (p q : List Char) (ps : List (List Char)) :
    pyJoin sep (p :: q :: ps) = p ++ sep :: pyJoin sep (q :: ps) := rfl

theorem pyJoin_cons_head (sep x : Char) (h : List Char) (t : List (List Char)) :
    pyJoin sep ((x :: h) :: t) = x :: pyJoin sep (h :: t) := by
  cases t with
  | nil => rfl
  | cons q ts => rw [pyJoin_cons_cons, pyJoin_cons_cons]; rfl

theorem pyJoin_pySplitOn (sep : Char) (l : List Char) :
    pyJoin sep (pySplitOn sep l) = l := by
  induction l with
  | nil => rfl
  | cons x xs ih =>
    simp only [pySplitOn]
    by_cases hx : x = sep
    · rw [if_pos hx]
      cases hr : pySplitOn sep xs with
      | nil => exact absurd hr (pySplitOn_ne_nil sep xs)
      | cons h t =>
        rw [hr] at ih
        rw [pyJoin_cons_cons, ih, hx]
        rfl
    · rw [if_neg hx]
      cases hr : pySplitOn sep xs with
      | nil => exact absurd hr (pySplitOn_ne_nil sep xs)
      | cons h t =>
        rw [hr] at ih
        rw [pyJoin_cons_head, ih]

theorem pySplitOn_of_not_mem {sep : Char} {l : List Char} (h : sep ∉ l) :
    pySplitOn sep l = [l] := by
  induction l with
  | nil => rfl
  | cons x xs ih =>
    have hx : x ≠ sep := fun he => h (he ▸ List.mem_cons_self x xs)
    have hxs : sep ∉ xs := fun hm => h (List.mem_cons_of_mem x hm)
    simp only [pySplitOn, if_neg hx, ih hxs]

theorem pySplitOn_append_cons {sep : Char} {a : List Char} (r : List Char)
    (h : sep ∉ a) : pySplitOn sep (a ++ sep :: r) = a :: pySplitOn sep r := by
  induction a with
  | nil => simp [pySplitOn]
  | cons x a' ih =>
    have hx : x ≠ sep := fun he => h (he ▸ List.mem_cons_self x a')
    have ha' : sep ∉ a' := fun hm => h (List.mem_cons_of_mem x hm)
    simp only [List.cons_append, pySplitOn, if_neg hx, List.append_eq]
    rw [ih ha']

theorem pySplitOn_pyJoin {sep : Char} {ps : List (List Char)} (hne : ps ≠ [])
    (hfree : ∀ p ∈ ps, sep ∉ p) : pySplitOn sep (pyJoin sep ps) = ps := by
  induction ps with
  | nil => exact absurd rfl hne
  | cons p rest ih =>
    cases rest with
    | nil =>
      show pySplitOn sep (pyJoin sep [p]) = [p]
      exact pySplitOn_of_not_mem (hfree p (List.mem_cons_self p []))
    | cons q ts =>
      rw [pyJoin_cons_cons,
        pySplitOn_append_cons _ (hfree p (List.mem_cons_self p (q :: ts))),
        ih (by simp) (fun r hr => hfree r (List.mem_cons_of_mem p hr))]

theorem not_mem_pyJoin {c sep : Char} (hc : c ≠ sep) :
    ∀ (ps : List (List Char)), (∀ p ∈ ps, c ∉ p) → c ∉ pyJoin sep ps := by
  intro ps
  induction ps with
  | nil => intro _; simp [pyJoin]
  | cons p rest ih =>
    intro hfree
    cases rest with
    | nil => exact hfree p (List.mem_cons_self p [])
    | cons q ts =>
      rw [pyJoin_cons_cons]
      intro hmem
      rcases List.mem_append.mp hmem with h1 | h2
      · exact hfree p (List.mem_cons_self p (q :: ts)) h1
      · rcases List.mem_cons.mp h2 with heq | h3
        · exact hc heq
        · exact ih (fun r hr => hfree r (List.mem_cons_of_mem p hr)) h3

theorem pySplitWsAux_sound :
    ∀ (l acc : List Char), (∀ c ∈ acc, pyIsSpace c = false) →
      ∀ t ∈ pySplitWsAux l acc, t ≠ [] ∧ ∀ c ∈ t, pyIsSpace c = false := by
  intro l
  induction l with
  | nil =>
    intro acc hacc t ht
    cases acc with
    | nil => simp [pySplitWsAux] at ht
    | cons a as =>
      simp only [pySplitWsAux, List.mem_singleton] at ht
      subst ht
      refine ⟨by simp, fun c hc => hacc c (List.mem_reverse.mp hc)⟩
  | cons c cs ih =>
    intro acc hacc t ht
    simp only [pySplitWsAux] at ht
    by_cases hc : pyIsSpace c = true
    · rw [if_pos hc] at ht
      cases acc with
      | nil => exact ih [] (by simp) t ht
      | cons a as =>
        rcases List.mem_cons.mp ht with rfl | ht'
        · refine ⟨by simp, fun c' hc' => hacc c' (List.mem_reverse.mp hc')⟩
        · exact ih [] (by simp) t ht'
    · rw [if_neg hc] at ht
      refine ih (c :: acc) ?_ t ht
      intro c' hc'
      rcases List.mem_cons.mp hc' with rfl | h
      · exact Bool.not_eq_true _ ▸ hc
      · exact hacc c' h

theorem pySplitWs_sound (l : List Char) :
    ∀ t ∈ pySplitWs l, t ≠ [] ∧ ∀ c ∈ t, pyIsSpace c = false :=
  pySplitWsAux_sound l [] (by simp)

theorem pySplitWsAux_token :
    ∀ (t : List Char), (∀ c ∈ t, pyIsSpace c = false) →
      ∀ (rest acc : List Char),
        pySplitWsAux (t ++ rest) acc = pySplitWsAux rest (t.reverse ++ acc) := by
  intro t
  induction t with
  | nil => intro _ rest acc; simp
  | cons x t' ih =>
    intro hfree rest acc
    have hx : pyIsSpace x = false := hfree x (List.mem_cons_self x t')
    have ht' : ∀ c ∈ t', pyIsSpace c = false :=
      fun c hc => hfree c (List.mem_cons_of_mem x hc)
    simp only [List.cons_append, pySplitWsAux, hx, List.append_eq]
    rw [if_neg (by simp [hx]), ih ht' rest (x :: acc)]
    simp [List.append_assoc]

theorem pySplitWs_pyJoin (ts : List (List Char))
    (h : ∀ t ∈ ts, t ≠ [] ∧ ∀ c ∈ t, pyIsSpace c = false) :
    pySplitWs (pyJoin ' ' ts) = ts := by
  induction ts with
  | nil => rfl
  | cons t rest ih =>
    cases rest with
    | nil =>
      have ht := h t (List.mem_cons_self t [])
      show pySplitWsAux (pyJoin ' ' [t]) [] = [t]
      have he : pyJoin ' ' [t] = t ++ [] := by simp [pyJoin]
      rw [he, pySplitWsAux_token t ht.2 [] [], List.append_nil]
      cases hrev : t.reverse with
      | nil => exact absurd (by simpa using congrArg List.reverse hrev) ht.1
      | cons a as =>
        show [(a :: as).reverse] = [t]
        rw [← hrev, List.reverse_reverse]
    | cons q ts' =>
      have ht := h t (List.mem_cons_self t (q :: ts'))
      show pySplitWsAux (pyJoin ' ' (t :: q :: ts')) [] = t :: q :: ts'
      rw [pyJoin_cons_cons, pySplitWsAux_token t ht.2 (' ' :: pyJoin ' ' (q :: ts')) []]
      have hsp : pyIsSpace ' ' = true := by decide
      simp only [List.append_nil, pySplitWsAux, hsp, if_pos]
      cases hrev : t.reverse with
      | nil => exact absurd (by simpa using congrArg List.reverse hrev) ht.1
      | cons a as =>
        have : (a :: as).reverse = t := by rw [← hrev]; simp
        rw [this]
        have ihr := ih (fun r hr => h r (List.mem_cons_of_mem t hr))
        rw [show pySplitWsAux (pyJoin ' ' (q :: ts')) [] = pySplitWs (pyJoin ' ' (q :: ts')) from rfl, ihr]

theorem pyReadLinesAux_no_newline :
    ∀ (l acc : List Char), '\n' ∉ acc →
      ∀ ln ∈ pyReadLinesAux l acc, '\n' ∉ ln := by
  intro l
  induction l with
  | nil =>
    intro acc hacc ln hln
    cases acc with
    | nil => simp [pyReadLinesAux] at hln
    | cons a as =>
      simp only [pyReadLinesAux, List.mem_singleton] at hln
      subst hln
      intro hmem
      exact hacc (List.mem_reverse.mp hmem)
  | cons c cs ih =>
    intro acc hacc ln hln
    simp only [pyReadLinesAux] at hln
    by_cases hc : c = '\n'
    · rw [if_pos hc] at hln
      rcases List.mem_cons.mp hln with rfl | hln'
      · intro hmem
        exact hacc (List.mem_reverse.mp hmem)
      · exact ih [] (by simp) ln hln'
    · rw [if_neg hc] at hln
      refine ih (c :: acc) ?_ ln hln
      intro hmem
      rcases List.mem_cons.mp hmem with heq | hm
      · exact hc heq.symm
      · exact hacc hm

theorem segSuffix_eq_dropWhile (seg : List Char) :
    segSuffix seg = seg.dropWhile (fun c => !(isAuxSep c)) := by
  have h := List.takeWhile_append_dropWhile (fun c => !(isAuxSep c)) seg
  calc seg.drop (auxRoot seg).length
      = ((seg.takeWhile (fun c => !(isAuxSep c))) ++
          (seg.dropWhile (fun c => !(isAuxSep c)))).drop (auxRoot seg).length := by
        rw [h]
    _ = seg.dropWhile (fun c => !(isAuxSep c)) := List.drop_left' rfl

theorem trailingSpaceCount_append_space (x : List Char)
    (hx : x.getLast? ≠ some ' ') : trailingSpaceCount (x ++ [' ']) = 1 := by
  unfold trailingSpaceCount
  rw [List.reverse_append]
  have h1 : ([' '] : List Char).reverse = [' '] := rfl
  rw [h1]
  show (List.takeWhile (fun c => c == ' ') (' ' :: x.reverse)).length = 1
  rw [List.takeWhile_cons_of_pos (by decide)]
  have h2 : x.reverse.takeWhile (fun c => c == ' ') = [] := by
    cases hxr : x.reverse with
    | nil => rfl
    | cons a as =>
      have ha : x.getLast? = some a := by
        rw [← List.head?_reverse, hxr]; rfl
      have : (a == ' ') = false := by
        cases hae : a == ' '
        · rfl
        · exact absurd (ha.trans (by rw [eq_of_beq hae])) hx
      rw [List.takeWhile_cons_of_neg (by simp [this])]
  rw [h2]
  rfl

theorem getLast?_pyJoin (sep : Char) :
    ∀ (ms : List (List Char)) (m : List Char), ms.getLast? = some m → m ≠ [] →
      (pyJoin sep ms).getLast? = m.getLast? := by
  intro ms
  induction ms with
  | nil => intro m hm; simp at hm
  | cons p rest ih =>
    intro m hm hne
    cases rest with
    | nil =>
      have : p = m := by simpa using hm
      subst this
      rfl
    | cons q ts =>
      rw [List.getLast?_cons_cons] at hm
      rw [pyJoin_cons_cons, List.getLast?_append]
      have hr := ih m hm hne
      have hsome : ∃ y, (pyJoin sep (q :: ts)).getLast? = some y := by
        cases hmy : m.getLast? with
        | none => exact absurd (List.getLast?_eq_none_iff.mp hmy) hne
        | some y => exact ⟨y, by rw [hr, hmy]⟩
      rcases hsome with ⟨y, hy⟩
      have hcons : (sep :: pyJoin sep (q :: ts)).getLast? = some y := by
        cases hj : pyJoin sep (q :: ts) with
        | nil => rw [hj] at hy; simp at hy
        | cons b bs => rw [List.getLast?_cons_cons, ← hj]; exact hy
      rw [hcons]
      show some y = m.getLast?
      exact hy.symm.trans hr

/-! ### Helper lemmas for the claim theorems -/

theorem dite_get_eq_getElem {α : Type} (l : List α) (i : Nat) (d : α) :
    (if h : i < l.length then l.get ⟨i, h⟩ else d) = (l[i]?).getD d := by
  split
  · next h => rw [List.getElem?_eq_getElem h]; rfl
  · next h => rw [List.getElem?_eq_none (Nat.le_of_not_lt h)]; rfl

theorem pyReadLines_all_no_newline (s : List Char) :
    (pyReadLines s).all (fun ln => ln.all (fun c => !(c == '\n'))) = true := by
  rw [List.all_eq_true]
  intro ln hln
  rw [List.all_eq_true]
  intro c hc
  have hnn := pyReadLinesAux_no_newline s [] (by simp) ln hln
  simp only [Bool.not_eq_true', beq_eq_false_iff_ne]
  exact fun he => hnn (he ▸ hc)

theorem strip_set_split (line : List Char) (idx : Nat) (v : List Char)
    (hv : '\t' ∉ v) :
    pySplitOn '\t' (pyJoin '\t' ((pySplitOn '\t' line).set idx v)) =
      (pySplitOn '\t' line).set idx v := by
  apply pySplitOn_pyJoin
  · intro he
    have hl := congrArg List.length he
    simp only [List.length_set, List.length_nil] at hl
    exact pySplitOn_ne_nil '\t' line (List.length_eq_zero.mp hl)
  · intro p hp
    rcases List.mem_or_eq_of_mem_set hp with hmem | rfl
    · exact not_mem_pySplitOn '\t' line p hmem
    · exact hv

theorem semiRoot_no_tab {col : List Char} (tok : List Char)
    (htok : tok ∈ pySplitWs col) : '\t' ∉ semiRoot tok := by
  intro hmem
  have hsub : '\t' ∈ tok := List.takeWhile_subset _ hmem
  have := (pySplitWs_sound col tok htok).2 '\t' hsub
  exact absurd this (by decide)

theorem stripped_col_no_tab (col : List Char) :
    '\t' ∉ pyJoin ' ' ((pySplitWs col).map semiRoot) := by
  apply not_mem_pyJoin (by decide)
  intro r hr
  rcases List.mem_map.mp hr with ⟨tok, htok, rfl⟩
  exact semiRoot_no_tab tok htok

/-! ### Claim theorems -/

/-- C5: for every word, aux map and raw segment list, the auxiliary-code
merge is total and rewrites raw segment `i` to `root;aux`, where `root`
is the text before the segment's first semicolon or opening bracket and
`aux` is the AuxMap code of character `i` of the word (the empty string
when the character is absent from the map or the word has no character
`i`); the output has exactly one entry per raw segment, so a word longer
or shorter than the segment list is handled without error. -/
theorem aux_refresh_merge_spec (auxMap : List (Char × List Char))
    (word : List Char) (rawSegs : List (List Char)) :
    (mergeAuxSegs auxMap word rawSegs).length = rawSegs.length ∧
    ∀ i : Nat, (mergeAuxSegs auxMap word rawSegs)[i]? =
      (rawSegs[i]?).map (fun py =>
        auxRoot py ++ ';' ::
          (if h : i < word.length then (auxMap.lookup (word.get ⟨i, h⟩)).getD []
           else [])) := by
  constructor
  · simp [mergeAuxSegs]
  · intro i
    simp only [mergeAuxSegs, List.getElem?_map, List.getElem?_enum]
    cases hseg : rawSegs[i]? with
    | none => rfl
    | some py =>
      simp only [Option.map_some']
      congr 2
      rw [dite_get_eq_getElem]
      by_cases h : i < word.length
      · rw [dif_pos h, List.getElem?_eq_getElem
          (show i < (build_seg_by_aux word auxMap).length by
            simpa [build_seg_by_aux] using h)]
        simp [build_seg_by_aux]
      · rw [dif_neg h, List.getElem?_eq_none
          (show (build_seg_by_aux word auxMap).length ≤ i by
            simpa [build_seg_by_aux] using Nat.le_of_not_lt h)]
        rfl

/-- C6: during UserDB transcription regeneration each output segment is
the new root followed by the unchanged suffix of the old segment — all
text from the old segment's first separator (semicolon or opening
bracket) onward — where the new root is `charTranscriptions i` when
available and the tone-marked old segment otherwise; in particular
segment `ni;abc` with replacement root `nǐ` merges to `nǐ;abc`. -/
theorem regen_suffix_preserved (svc : PinyinSvc)
    (charPy segs : List (List Char)) :
    (∀ i : Nat, (userdbMergeSegs svc charPy segs)[i]? =
      (segs[i]?).map (fun seg =>
        (if h : i < charPy.length then charPy.get ⟨i, h⟩ else tone_mark svc seg)
          ++ seg.dropWhile (fun c => !(isAuxSep c)))) ∧
    userdbMergeSegs svc [("nǐ").toList] [("ni;abc").toList] =
      [("nǐ;abc").toList] := by
  constructor
  · intro i
    simp only [userdbMergeSegs, List.getElem?_map, List.getElem?_enum]
    cases hseg : segs[i]? with
    | none => rfl
    | some seg =>
      simp only [Option.map_some']
      congr 1
      rw [segSuffix_eq_dropWhile]
  · rfl

/-- C8: on every tab-separated line with at least two columns, the ad-hoc
variant script's per-line strip transformation agrees exactly with
`remove_auxiliary_code_from_line` in Plain (non-userdb) mode. -/
theorem adhoc_strip_agrees (line : List Char)
    (h : 2 ≤ (pySplitOn '\t' line).length) :
    adhocStripDataLine line = remove_auxiliary_code_from_line line false := by
  unfold adhocStripDataLine remove_auxiliary_code_from_line
  have hd : decide (2 ≤ (pySplitOn '\t' line).length) = true := decide_eq_true h
  simp [hd]

/-- Witness for C8 at a concrete two-column line. -/
theorem adhoc_strip_agrees_witness :
    2 ≤ (pySplitOn '\t' ("你好\tni;q hao;y\t8").toList).length ∧
    adhocStripDataLine ("你好\tni;q hao;y\t8").toList =
      remove_auxiliary_code_from_line ("你好\tni;q hao;y\t8").toList false :=
  ⟨by decide, adhoc_strip_agrees (("你好\tni;q hao;y\t8").toList) (by decide)⟩

/-- C9: whatever the `utf-8` and `gbk` decoders do on the given bytes,
the encoding-tolerant read always succeeds (the latin-1 fallback decodes
every byte sequence, so the decode-failure branch is unreachable) and
every returned line has its `\n` terminator stripped. -/
theorem read_file_safely_total
    (utf8Dec gbkDec : List UInt8 → Option (List Char)) (bs : List UInt8) :
    (read_file_safely utf8Dec gbkDec bs).isSome = true ∧
    ((read_file_safely utf8Dec gbkDec bs).getD []).all
      (fun ln => ln.all (fun c => !(c == '\n'))) = true := by
  unfold read_file_safely
  cases utf8Dec bs with
  | some s => exact ⟨rfl, pyReadLines_all_no_newline s⟩
  | none =>
    cases gbkDec bs with
    | some s => exact ⟨rfl, pyReadLines_all_no_newline s⟩
    | none => exact ⟨rfl, pyReadLines_all_no_newline (latin1Decode bs)⟩

theorem remove_line_eq_userdb (line : List Char) :
    remove_auxiliary_code_from_line line true =
      pyJoin '\t' ((pySplitOn '\t' line).set 0
        (pyJoin ' ' ((pySplitWs ((pySplitOn '\t' line).getD 0 [])).map semiRoot))) := by
  have h1 : 1 ≤ (pySplitOn '\t' line).length :=
    Nat.succ_le_of_lt (List.length_pos.mpr (pySplitOn_ne_nil '\t' line))
  unfold remove_auxiliary_code_from_line
  simp [decide_eq_true h1]

theorem remove_line_eq_plain (line : List Char)
    (h2 : 2 ≤ (pySplitOn '\t' line).length) :
    remove_auxiliary_code_from_line line false =
      pyJoin '\t' ((pySplitOn '\t' line).set 1
        (pyJoin ' ' ((pySplitWs ((pySplitOn '\t' line).getD 1 [])).map semiRoot))) := by
  unfold remove_auxiliary_code_from_line
  simp [decide_eq_true h2]

theorem remove_line_eq_short (line : List Char)
    (h2 : ¬ 2 ≤ (pySplitOn '\t' line).length) :
    remove_auxiliary_code_from_line line false = line := by
  unfold remove_auxiliary_code_from_line
  simp [decide_eq_false h2]

/-- C10: the strip operation preserves the number of tab-separated
columns and leaves every column other than the selected transcription
column (0 in UserDB mode, 1 in Plain mode) unchanged. -/
theorem strip_frame (line : List Char) (userdb : Bool) :
    (pySplitOn '\t' (remove_auxiliary_code_from_line line userdb)).length =
      (pySplitOn '\t' line).length ∧
    ∀ i : Nat, i ≠ (if userdb then 0 else 1) →
      (pySplitOn '\t' (remove_auxiliary_code_from_line line userdb))[i]? =
        (pySplitOn '\t' line)[i]? := by
  cases userdb with
  | true =>
    rw [remove_line_eq_userdb line,
      strip_set_split line 0 _ (stripped_col_no_tab _)]
    refine ⟨List.length_set _ _ _, fun i hi => ?_⟩
    have hi' : i ≠ 0 := by simpa using hi
    exact List.getElem?_set_ne (Ne.symm hi')
  | false =>
    by_cases h2 : 2 ≤ (pySplitOn '\t' line).length
    · rw [remove_line_eq_plain line h2,
        strip_set_split line 1 _ (stripped_col_no_tab _)]
      refine ⟨List.length_set _ _ _, fun i hi => ?_⟩
      have hi' : i ≠ 1 := by simpa using hi
      exact List.getElem?_set_ne (Ne.symm hi')
    · rw [remove_line_eq_short line h2]
      exact ⟨rfl, fun i _ => rfl⟩

/-- Witness for C10 at a concrete Plain-mode line: column 2 (the
frequency column) is untouched by the strip operation. -/
theorem strip_frame_witness :
    (2 : Nat) ≠ (if false then 0 else 1) ∧
    (pySplitOn '\t' (remove_auxiliary_code_from_line
        ("词语\tci;a yu;b\t99").toList false))[2]? =
      (pySplitOn '\t' ("词语\tci;a yu;b\t99").toList)[2]? :=
  ⟨by decide, (strip_frame (("词语\tci;a yu;b\t99").toList) false).2 2 (by decide)⟩

theorem semiRoot_ne_nil {tok : List Char} (hne : tok ≠ [])
    (hhead : tok.head? ≠ some ';') : semiRoot tok ≠ [] := by
  cases tok with
  | nil => exact absurd rfl hne
  | cons a t =>
    have ha : a ≠ ';' := by
      intro he
      exact hhead (by rw [List.head?_cons, he])
    have hb : (a == ';') = false := beq_eq_false_iff_ne.mpr ha
    show List.takeWhile (fun c => !(c == ';')) (a :: t) ≠ []
    rw [List.takeWhile_cons_of_pos (by simp [hb])]
    simp

theorem semiRoot_idem (tok : List Char) : semiRoot (semiRoot tok) = semiRoot tok := by
  unfold semiRoot
  rw [List.takeWhile_eq_self_iff]
  intro x hx
  have h := List.mem_takeWhile_imp hx
  exact h

theorem strip_col_idem (col : List Char)
    (htok : ∀ tok ∈ pySplitWs col, tok.head? ≠ some ';') :
    pyJoin ' ' ((pySplitWs (pyJoin ' ' ((pySplitWs col).map semiRoot))).map semiRoot) =
      pyJoin ' ' ((pySplitWs col).map semiRoot) := by
  have hprops : ∀ r ∈ (pySplitWs col).map semiRoot,
      r ≠ [] ∧ ∀ c ∈ r, pyIsSpace c = false := by
    intro r hr
    rcases List.mem_map.mp hr with ⟨tok, htok', rfl⟩
    have hs := pySplitWs_sound col tok htok'
    refine ⟨semiRoot_ne_nil hs.1 (htok tok htok'), fun c hcm => hs.2 c (List.takeWhile_subset _ hcm)⟩
  rw [pySplitWs_pyJoin _ hprops]
  congr 1
  rw [List.map_map]
  exact List.map_congr_left (fun tok _ => semiRoot_idem tok)

/-- C4 counterexample: the claim "applying the strip operation twice
yields exactly the same line as applying it once" fails on the Plain-mode
line `你\t;x a`: a segment that begins with a semicolon strips to an
empty root, and the second application collapses the leftover space. -/
theorem strip_not_idempotent_cex :
    remove_auxiliary_code_from_line
        (remove_auxiliary_code_from_line ("你\t;x a").toList false) false ≠
      remove_auxiliary_code_from_line ("你\t;x a").toList false := by
  decide

/-- C4 amended: applying the strip operation twice yields the same line
as applying it once for every data line in which no whitespace segment of
the selected transcription column begins with a semicolon (a
semicolon-initial segment strips to an empty root, which the second
application's whitespace split then discards). -/
theorem strip_idempotent_amended (line : List Char) (userdb : Bool)
    (htok : ∀ tok ∈ pySplitWs ((pySplitOn '\t' line).getD (if userdb then 0 else 1) []),
      tok.head? ≠ some ';') :
    remove_auxiliary_code_from_line
        (remove_auxiliary_code_from_line line userdb) userdb =
      remove_auxiliary_code_from_line line userdb := by
  cases userdb with
  | true =>
    have h0 : 0 < (pySplitOn '\t' line).length :=
      List.length_pos.mpr (pySplitOn_ne_nil '\t' line)
    rw [remove_line_eq_userdb line]
    rw [remove_line_eq_userdb (pyJoin '\t' ((pySplitOn '\t' line).set 0
      (pyJoin ' ' ((pySplitWs ((pySplitOn '\t' line).getD 0 [])).map semiRoot))))]
    rw [strip_set_split line 0 _ (stripped_col_no_tab _)]
    have hget : ((pySplitOn '\t' line).set 0
        (pyJoin ' ' ((pySplitWs ((pySplitOn '\t' line).getD 0 [])).map semiRoot))).getD 0 [] =
        pyJoin ' ' ((pySplitWs ((pySplitOn '\t' line).getD 0 [])).map semiRoot) := by
      simp [List.getD, List.getElem?_set_self h0]
    rw [hget, strip_col_idem _ (by simpa using htok), List.set_set]
  | false =>
    by_cases h2 : 2 ≤ (pySplitOn '\t' line).length
    · have h1 : 1 < (pySplitOn '\t' line).length := h2
      rw [remove_line_eq_plain line h2]
      have hsplit := strip_set_split line 1
        (pyJoin ' ' ((pySplitWs ((pySplitOn '\t' line).getD 1 [])).map semiRoot))
        (stripped_col_no_tab _)
      have h2' : 2 ≤ (pySplitOn '\t' (pyJoin '\t' ((pySplitOn '\t' line).set 1
          (pyJoin ' ' ((pySplitWs ((pySplitOn '\t' line).getD 1 [])).map semiRoot))))).length := by
        rw [hsplit, List.length_set]
        exact h2
      rw [remove_line_eq_plain _ h2', hsplit]
      have hget : ((pySplitOn '\t' line).set 1
          (pyJoin ' ' ((pySplitWs ((pySplitOn '\t' line).getD 1 [])).map semiRoot))).getD 1 [] =
          pyJoin ' ' ((pySplitWs ((pySplitOn '\t' line).getD 1 [])).map semiRoot) := by
        simp [List.getD, List.getElem?_set_self h1]
      rw [hget, strip_col_idem _ (by simpa using htok), List.set_set]
    · rw [remove_line_eq_short line h2, remove_line_eq_short line h2]

/-- Witness for the amended C4 at a concrete Plain-mode line whose
segments all start with non-semicolon characters. -/
theorem strip_idempotent_amended_witness :
    (∀ tok ∈ pySplitWs ((pySplitOn '\t' ("你好\tni;x hao;y").toList).getD
        (if false then 0 else 1) []), tok.head? ≠ some ';') ∧
    remove_auxiliary_code_from_line
        (remove_auxiliary_code_from_line ("你好\tni;x hao;y").toList false) false =
      remove_auxiliary_code_from_line ("你好\tni;x hao;y").toList false :=
  ⟨by decide, strip_idempotent_amended (("你好\tni;x hao;y").toList) false (by decide)⟩

/-- A concrete transcription service for witnesses and counterexamples:
the single character `你` transcribes to `nǐ`; everything else yields no
candidates. -/
def svcNi : PinyinSvc :=
  { charPy := fun w => if w = ("你").toList then [("nǐ").toList] else [],
    tonePy := fun _ => none }

/-- A concrete aux map for witnesses and counterexamples: `你 ↦ z`. -/
def auxNi : List (Char × List Char) := [('你', ("z").toList)]

theorem refreshCols_all_off (svc : PinyinSvc) (auxMap : List (Char × List Char))
    (w : List Char) (cols : List (List Char)) :
    refreshCols svc auxMap false false false w cols = cols := by
  unfold refreshCols pinyinStep auxStep trailingStep
  simp

theorem processDataLine_all_off_plain (svc : PinyinSvc)
    (auxMap : List (Char × List Char)) (line : List Char) :
    processDataLine svc auxMap false false false line = line := by
  unfold processDataLine
  simp only [Bool.false_eq_true, if_false]
  cases h : (pySplitOn '\t' line).get? 0 with
  | none => rfl
  | some w =>
    simp only [refreshCols_all_off, pyJoin_pySplitOn]
    split <;> rfl

theorem processFile_off_no_marker (svc : PinyinSvc)
    (auxMap : List (Char × List Char)) :
    ∀ (lines : List (List Char)), (∀ l ∈ lines, is_userdb_head l = false) →
      ∀ (modified : Bool),
        (processFileRefresh svc auxMap false false lines false modified).2 = modified := by
  intro lines
  induction lines with
  | nil => intro _ m; rfl
  | cons line rest ih =>
    intro hmark m
    have hline : is_userdb_head line = false := hmark line (List.mem_cons_self _ _)
    have hrest := fun l hl => hmark l (List.mem_cons_of_mem line hl)
    unfold processFileRefresh
    by_cases hc : isControlLine line = true
    · simp only [hc, if_true, hline, Bool.or_false]
      exact ih hrest m
    · simp only [Bool.not_eq_true] at hc
      by_cases hb : pyStrip line = []
      · simp only [hc, Bool.false_eq_true, if_false, hb, if_true]
        exact ih hrest m
      · simp only [hc, Bool.false_eq_true, if_false, hb, if_neg hb,
          processDataLine_all_off_plain, pyJoin_pySplitOn, ne_eq, not_true_eq_false,
          decide_False, Bool.or_false]
        exact ih hrest m

/-- C7 counterexample: a UserDB file whose data line carries no auxiliary
suffix, processed with both refresh toggles off, is nevertheless reported
modified (and hence written): the trailing-space normalization runs even
with both sub-operations disabled. -/
theorem noop_refresh_cex :
    (processFileRefresh svcNi [] false false
      [("# Rime user dictionary").toList, ("ni\t你").toList] false false).2 = true := by
  decide

/-- C7 amended: for every file containing no user-dictionary marker,
processing with both refresh toggles off reports the file unmodified, so
no write occurs and the on-disk bytes stay unchanged; in UserDB mode the
trailing-space normalization still runs even with both toggles off, so a
UserDB line whose transcription column lacks a trailing space is counted
as modified and triggers a write.  A line counts as modified exactly when
its tab-joined serialization differs from the original line, and a file
with no modified line produces no write. -/
theorem noop_refresh_unmodified (svc : PinyinSvc)
    (auxMap : List (Char × List Char)) (lines : List (List Char))
    (hmark : ∀ l ∈ lines, is_userdb_head l = false) :
    (processFileRefresh svc auxMap false false lines false false).2 = false :=
  processFile_off_no_marker svc auxMap lines hmark false

/-- Witness for the amended C7 on a concrete Plain-mode file. -/
theorem noop_refresh_unmodified_witness :
    (∀ l ∈ [("---").toList, ("你好\tni hao\t5").toList],
      is_userdb_head l = false) ∧
    (processFileRefresh svcNi auxNi false false
      [("---").toList, ("你好\tni hao\t5").toList] false false).2 = false :=
  ⟨by decide, noop_refresh_unmodified svcNi auxNi
    [("---").toList, ("你好\tni hao\t5").toList] (by decide)⟩

theorem lookup_val_nonspace {auxMap : List (Char × List Char)}
    (hmap : ∀ pr ∈ auxMap, ∀ c ∈ pr.2, pyIsSpace c = false) (ch : Char) :
    ∀ c ∈ (auxMap.lookup ch).getD [], pyIsSpace c = false := by
  cases hl : auxMap.lookup ch with
  | none => simp
  | some v =>
    rcases List.lookup_eq_some_iff.mp hl with ⟨l₁, l₂, heq, _⟩
    intro c hc
    exact hmap (ch, v) (by rw [heq]; simp) c hc

theorem build_seg_by_aux_chars {auxMap : List (Char × List Char)}
    (word : List Char)
    (hmap : ∀ pr ∈ auxMap, ∀ c ∈ pr.2, pyIsSpace c = false) :
    ∀ v ∈ build_seg_by_aux word auxMap, ∀ c ∈ v, pyIsSpace c = false := by
  intro v hv
  rcases List.mem_map.mp hv with ⟨ch, _, rfl⟩
  exact lookup_val_nonspace hmap ch

theorem mergeAuxSegs_elem_props (auxMap : List (Char × List Char))
    (word : List Char) (rawSegs : List (List Char))
    (hmap : ∀ pr ∈ auxMap, ∀ c ∈ pr.2, pyIsSpace c = false)
    (hsegs : ∀ s ∈ rawSegs, ∀ c ∈ s, pyIsSpace c = false) :
    ∀ m ∈ mergeAuxSegs auxMap word rawSegs,
      m ≠ [] ∧ m.getLast? ≠ some ' ' ∧ '\t' ∉ m := by
  intro m hm
  unfold mergeAuxSegs at hm
  rcases List.mem_map.mp hm with ⟨p, hp, rfl⟩
  have hseg : p.2 ∈ rawSegs := by
    have h2 := List.mem_enum_iff_getElem?.mp hp
    exact List.getElem?_mem h2
  have hauxchars : ∀ c ∈ (if h : p.1 < (build_seg_by_aux word auxMap).length
      then (build_seg_by_aux word auxMap).get ⟨p.1, h⟩ else []),
      pyIsSpace c = false := by
    split
    · next h =>
      exact build_seg_by_aux_chars word hmap _ (List.get_mem _ _ _)
    · simp
  refine ⟨by simp, ?_, ?_⟩
  · cases haux : (if h : p.1 < (build_seg_by_aux word auxMap).length
        then (build_seg_by_aux word auxMap).get ⟨p.1, h⟩ else []) with
    | nil => simp
    | cons a as =>
      have hnn : (a :: as : List Char) ≠ [] := by simp
      have hlast := List.getLast?_eq_getLast (a :: as) hnn
      have hmemlast : (a :: as).getLast hnn ∈ (a :: as) := List.getLast_mem hnn
      have hns : pyIsSpace ((a :: as).getLast hnn) = false :=
        hauxchars _ (by rw [haux]; exact hmemlast)
      rw [List.getLast?_append, List.getLast?_cons_cons, hlast]
      intro hcontra
      rw [show ((some ((a :: as).getLast hnn)).or (auxRoot p.2).getLast?) =
          some ((a :: as).getLast hnn) from rfl] at hcontra
      rw [Option.some_inj.mp hcontra] at hns
      exact absurd hns (by decide)
  · intro hmem
    rcases List.mem_append.mp hmem with h1 | h2
    · have hin : '\t' ∈ p.2 := List.takeWhile_subset _ h1
      have := hsegs p.2 hseg '\t' hin
      exact absurd this (by decide)
    · rcases List.mem_cons.mp h2 with heq | h3
      · exact absurd heq (by decide)
      · have := hauxchars '\t' h3
        exact absurd this (by decide)

theorem pyJoin_space_props (ms : List (List Char))
    (hprops : ∀ m ∈ ms, m ≠ [] ∧ m.getLast? ≠ some ' ' ∧ '\t' ∉ m) :
    (pyJoin ' ' ms).getLast? ≠ some ' ' ∧ '\t' ∉ pyJoin ' ' ms := by
  constructor
  · cases hms : ms with
    | nil => simp [pyJoin]
    | cons a as =>
      have hne : ms ≠ [] := by rw [hms]; simp
      rw [← hms]
      have hlast := List.getLast?_eq_getLast ms hne
      have hmem := List.getLast_mem hne
      have hp := hprops _ hmem
      rw [getLast?_pyJoin ' ' ms _ hlast hp.1]
      exact hp.2.1
  · apply not_mem_pyJoin (by decide)
    intro p hp
    exact (hprops p hp).2.2

theorem pinyinStep_length (rp : Bool) (svc : PinyinSvc) (userdb : Bool)
    (w : List Char) (cols : List (List Char)) :
    cols.length ≤ (pinyinStep rp svc userdb w cols).length := by
  unfold pinyinStep
  cases rp with
  | false => simp
  | true =>
    simp only [if_true]
    split
    · simp
    · split
      · simp
      · split
        · simp only [List.length_cons, List.length_drop]
          omega
        · split
          · simp
          · exact Nat.le_refl _

theorem auxStep_userdb (auxMap : List (Char × List Char)) (w : List Char)
    (cols : List (List Char)) (hne : auxMap ≠ []) (h2 : 2 ≤ cols.length) :
    auxStep true auxMap true w cols =
      cols.set 0 (pyJoin ' '
        (mergeAuxSegs auxMap w (pySplitWs (pyStrip (cols.getD 0 []))))) := by
  unfold auxStep
  have hie : auxMap.isEmpty = false := List.isEmpty_eq_false.mpr hne
  have hlt : ¬ cols.length < 2 := Nat.not_lt.mpr h2
  have h0 : 0 < cols.length := by omega
  simp [hie, hlt, h0]

theorem pySplitOn_pyJoin_head (r0 : List Char) (rest : List (List Char))
    (h : '\t' ∉ r0) :
    (pySplitOn '\t' (pyJoin '\t' (r0 :: rest))).headD [] = r0 := by
  cases rest with
  | nil => rw [show pyJoin '\t' [r0] = r0 from rfl, pySplitOn_of_not_mem h]; rfl
  | cons q ts => rw [pyJoin_cons_cons, pySplitOn_append_cons _ h]; rfl

theorem refreshCols_userdb_shape (svc : PinyinSvc)
    (auxMap : List (Char × List Char)) (rp : Bool) (w : List Char)
    (cols : List (List Char)) (h2 : 2 ≤ cols.length) (hne : auxMap ≠ [])
    (hmap : ∀ pr ∈ auxMap, ∀ c ∈ pr.2, pyIsSpace c = false) :
    ∃ v rest, refreshCols svc auxMap rp true true w cols = v :: rest ∧
      trailingSpaceCount v = 1 ∧ '\t' ∉ v := by
  have hlen : 2 ≤ (pinyinStep rp svc true w cols).length :=
    Nat.le_trans h2 (pinyinStep_length rp svc true w cols)
  obtain ⟨c0, cr, hcons⟩ : ∃ c0 cr, pinyinStep rp svc true w cols = c0 :: cr := by
    cases hc : pinyinStep rp svc true w cols with
    | nil => rw [hc] at hlen; simp at hlen
    | cons a b => exact ⟨a, b, rfl⟩
  unfold refreshCols
  rw [hcons]
  have hlen' : 2 ≤ (c0 :: cr).length := hcons ▸ hlen
  rw [auxStep_userdb auxMap w (c0 :: cr) hne hlen', List.set_cons_zero]
  have hsegs : ∀ s ∈ pySplitWs (pyStrip ((c0 :: cr).getD 0 [])),
      ∀ c ∈ s, pyIsSpace c = false :=
    fun s hs => (pySplitWs_sound _ s hs).2
  have hprops := mergeAuxSegs_elem_props auxMap w
    (pySplitWs (pyStrip ((c0 :: cr).getD 0 []))) hmap hsegs
  have hjoin := pyJoin_space_props
    (mergeAuxSegs auxMap w (pySplitWs (pyStrip ((c0 :: cr).getD 0 [])))) hprops
  unfold trailingStep
  have hcond : (true && !(pyJoin ' '
      (mergeAuxSegs auxMap w (pySplitWs (pyStrip ((c0 :: cr).getD 0 []))))
      :: cr).isEmpty) = true := by simp
  rw [if_pos hcond]
  have hend : endsWithSpace ((pyJoin ' '
      (mergeAuxSegs auxMap w (pySplitWs (pyStrip ((c0 :: cr).getD 0 []))))
      :: cr).headD []) = false := by
    simp only [List.headD_cons]
    unfold endsWithSpace
    cases hgl : (pyJoin ' ' (mergeAuxSegs auxMap w
        (pySplitWs (pyStrip ((c0 :: cr).getD 0 []))))).getLast? with
    | none => rfl
    | some y =>
      have hy : y ≠ ' ' := fun he => hjoin.1 (by rw [hgl, he])
      simp [hy]
  rw [hend]
  simp only [Bool.false_eq_true, if_false, List.headD_cons, List.set_cons_zero]
  refine ⟨_, cr, rfl, ?_, ?_⟩
  · exact trailingSpaceCount_append_space _ hjoin.1
  · intro hmem
    rcases List.mem_append.mp hmem with h1 | h2'
    · exact hjoin.2 h1
    · rcases List.mem_cons.mp h2' with heq | h3
      · exact absurd heq (by decide)
      · simp at h3

/-- C3 counterexample: a UserDB data line whose transcription column ends
in two spaces, processed by refresh mode while the auxiliary-code map is
empty (so the aux sub-operation is skipped by its `and aux_map` guard),
keeps both trailing spaces: the resulting column 0 does not end in
exactly one trailing space. -/
theorem userdb_trailing_space_cex :
    trailingSpaceCount ((pySplitOn '\t'
      (processDataLine svcNi [] true true true ("ni  \t你").toList)).headD []) ≠ 1 := by
  decide

/-- C3 amended: for every UserDB data line whose word column exists and
is non-blank, processed by refresh mode with auxiliary-code refresh
operative (non-empty aux map whose codes contain no whitespace), the
resulting transcription column ends in exactly one trailing space; with
an inoperative aux refresh (empty map) pre-existing extra trailing spaces
can survive, and only "append one when missing, never a second" holds. -/
theorem userdb_trailing_space_amended (svc : PinyinSvc)
    (auxMap : List (Char × List Char)) (rp : Bool) (line w : List Char)
    (hw : (pySplitOn '\t' line).get? 1 = some w)
    (hwb : ¬ pyStrip w = [])
    (hne : auxMap ≠ [])
    (hmap : ∀ pr ∈ auxMap, ∀ c ∈ pr.2, pyIsSpace c = false) :
    trailingSpaceCount ((pySplitOn '\t'
      (processDataLine svc auxMap rp true true line)).headD []) = 1 := by
  have h2 : 2 ≤ (pySplitOn '\t' line).length := by
    rcases List.get?_eq_some.mp hw with ⟨hlt, _⟩
    omega
  obtain ⟨v, rest, hcols, hcount, htab⟩ :=
    refreshCols_userdb_shape svc auxMap rp w (pySplitOn '\t' line) h2 hne hmap
  unfold processDataLine
  simp only [hw, hwb, hcols, if_true, if_false, ite_true, ite_false]
  rw [pySplitOn_pyJoin_head v rest htab]
  exact hcount

/-- Witness for the amended C3 on a concrete UserDB line lacking a
trailing space: after refresh the transcription column ends in exactly
one. -/
theorem userdb_trailing_space_amended_witness :
    ((pySplitOn '\t' ("ni\t你").toList).get? 1 = some (("你").toList)) ∧
    trailingSpaceCount ((pySplitOn '\t'
      (processDataLine svcNi auxNi true true true ("ni\t你").toList)).headD []) = 1 :=
  ⟨by decide, userdb_trailing_space_amended svcNi auxNi true (("ni\t你").toList)
    (("你").toList) (by decide) (by decide) (by decide) (by decide)⟩

/-- C1 counterexample: on the UserDB data line `ni \t你` (2 columns,
non-blank word), running refresh with transcription regeneration enabled
does not merely skip the regeneration sub-operation: the result differs
from the run with regeneration disabled, because the sub-operation falls
into the Plain-format branch and rewrites column 1 — the word column —
with the word's transcription. -/
theorem userdb_short_regen_cex :
    processDataLine svcNi auxNi true true true ("ni \t你").toList ≠
      processDataLine svcNi auxNi false true true ("ni \t你").toList := by
  decide

/-- C1 amended: on a UserDB data line with exactly 2 columns whose second
column is not purely numeric, the transcription-regeneration sub-operation
leaves the transcription column (column 0) unchanged but rewrites
column 1 (the word column) segment-by-segment as in the Plain branch,
while auxiliary-code refresh still runs afterwards; segment-by-segment
regeneration of column 0 happens exactly when the UserDB line has at
least 3 columns. -/
theorem userdb_short_regen_amended (svc : PinyinSvc) (w c0 c1 : List Char)
    (hdig : pyIsDigits c1 = false) :
    pinyinStep true svc true w [c0, c1] =
      [c0, pyJoin ' ' (plainMergeSegs (svc.charPy w) (pySplitWs c1))] ∧
    ∀ (cols : List (List Char)), 3 ≤ cols.length →
      pinyinStep true svc true w cols =
        cols.set 0 (pyJoin ' '
          (userdbMergeSegs svc (svc.charPy w) (pySplitWs (cols.headD [])))) := by
  constructor
  · unfold pinyinStep
    simp [hdig]
  · intro cols h3
    unfold pinyinStep
    have hc : (true && decide (3 ≤ cols.length)) = true := by simp [h3]
    rw [if_pos rfl, if_pos hc]

/-- Witness for the amended C1: the 2-column case at `ni \t你`, and the
3-column case at a concrete column list. -/
theorem userdb_short_regen_amended_witness :
    pyIsDigits (("你").toList) = false ∧
    pinyinStep true svcNi true (("你").toList) [("ni ").toList, ("你").toList] =
      [("ni ").toList, pyJoin ' ' (plainMergeSegs (svcNi.charPy (("你").toList))
        (pySplitWs (("你").toList)))] ∧
    3 ≤ ([("ni").toList, ("你").toList, ("9").toList] : List (List Char)).length ∧
    pinyinStep true svcNi true (("你").toList)
        [("ni").toList, ("你").toList, ("9").toList] =
      ([("ni").toList, ("你").toList, ("9").toList]).set 0
        (pyJoin ' ' (userdbMergeSegs svcNi (svcNi.charPy (("你").toList))
          (pySplitWs (([("ni").toList, ("你").toList, ("9").toList]
            : List (List Char)).headD [])))) :=
  ⟨by decide,
   (userdb_short_regen_amended svcNi (("你").toList) (("ni ").toList)
     (("你").toList) (by decide)).1,
   by decide,
   (userdb_short_regen_amended svcNi (("你").toList) (("ni ").toList)
     (("你").toList) (by decide)).2
     [("ni").toList, ("你").toList, ("9").toList] (by decide)⟩

/-- C2: evaluating the write-and-replace protocol at its failure points.
First conjunct: when the original file exists, the temp write and the
unlink succeed, and `shutil.move` fails, the original file is gone
(deleted by the pre-move unlink) and the cleanup has also deleted the
temp — the content is lost entirely even though the replace never
completed.  Second conjunct: when `tmp.write` fails, `temp_path` is still
`None`, so the cleanup skips the unlink and a temp file remains in the
directory.  Both outcomes contradict the claim that the original stays
byte-identical and no temp file remains. -/
theorem write_and_replace_failure_eval :
    write_and_replace ⟨some (("old").toList), false⟩ (("new").toList)
        false false true = (⟨none, false⟩, false) ∧
    write_and_replace ⟨some (("old").toList), false⟩ (("new").toList)
        true false false = (⟨some (("old").toList), true⟩, false) :=
  ⟨rfl, rfl⟩
